import Mathlib

/-!
Verification of the PII-redaction logic of `0x00-personal_data/filtered_logger.py`
and the password helpers of `0x00-personal_data/encrypt_password.py`.

The heart of the source is

    def filter_datum(fields, redaction, message, separator):
        for field in fields:
            message = re.sub(f'{field}=.*?{separator}',
                             f'{field}={redaction}{separator}', message)
        return message

`re.sub` with the pattern `{field}=.*?{separator}` scans the subject left to
right; at each position it tries to match the literal `field=`, then `.*?`
(non-greedy: the shortest run of characters, where `.` matches anything except
a newline) followed by the literal separator.  On a match the whole matched
span is replaced by `field={redaction}{separator}` and scanning resumes right
after the match (the replacement text is not rescanned); otherwise one
character is emitted unchanged and the scan advances by one.

We embed this scan directly.  Field names and the redaction text are taken
literally (the spec documents that field names must not contain the separator
or regex metacharacters); the separator, a one-character string in the source
(`SEPARATOR = ";"`), is modelled as a `Char`.
-/

namespace FilteredLogger

/-- The non-greedy tail of the pattern: `.*?{sep}` matched against `l`.
Returns the remainder after the first `sep`, provided every character
before it is a non-newline (Python's `.` does not match `'\n'`). -/
def findSep (sep : Char) : List Char → Option (List Char)
  | [] => none
  | c :: cs => if c = sep then some cs else if c = '\n' then none else findSep sep cs

/-- `startsWith pat l` : `pat` is a literal prefix of `l`. -/
def startsWith : List Char → List Char → Bool
  | [], _ => true
  | _ :: _, [] => false
  | p :: ps, c :: cs => p = c && startsWith ps cs

/-- `containsPat pat l` : `pat` occurs in `l` as a contiguous substring. -/
def containsPat (pat : List Char) : List Char → Bool
  | [] => startsWith pat []
  | c :: cs => startsWith pat (c :: cs) || containsPat pat cs

/-- One attempt of the pattern `{field}=.*?{sep}` at the head of `l`:
on success, the remainder of `l` after the matched span. -/
def matchField (field : List Char) (sep : Char) (l : List Char) : Option (List Char) :=
  if startsWith (field ++ ['=']) l then findSep sep (l.drop (field.length + 1)) else none

/-- The substitution scan, with explicit fuel (one unit per scanned position;
each step consumes at least one character of the subject, so fuel equal to the
subject's length always suffices). -/
def subFuel (field tok : List Char) (sep : Char) : Nat → List Char → List Char
  | 0, l => l
  | _ + 1, [] => []
  | n + 1, c :: cs =>
    match matchField field sep (c :: cs) with
    | some rest => field ++ '=' :: (tok ++ sep :: subFuel field tok sep n rest)
    | none => c :: subFuel field tok sep n cs

/-- `re.sub(f'{field}=.*?{sep}', f'{field}={tok}{sep}', l)`. -/
def subAll (field tok : List Char) (sep : Char) (l : List Char) : List Char :=
  subFuel field tok sep l.length l

/-- `filter_datum(fields, redaction, message, separator)` of
`filtered_logger.py`: the per-field sequential `re.sub` loop. -/
def filter_datum (fields : List String) (redaction : String) (message : String)
    (separator : Char) : String :=
  ⟨fields.foldl (fun m f => subAll f.data redaction.data separator m) message.data⟩

/-- The repository's `PII_FIELDS` tuple. -/
def PII_FIELDS : List String := ["name", "email", "phone", "ssn", "password"]

/-- The separator-delimited segments of a message
(`"a;b;"` maps to `["a", "b", ""]`). -/
def splitSep (sep : Char) : List Char → List (List Char)
  | [] => [[]]
  | c :: cs =>
    if c = sep then [] :: splitSep sep cs
    else
      match splitSep sep cs with
      | [] => [[c]]
      | s :: ss => (c :: s) :: ss

/-- The field name of a segment: the text before its first `=`. -/
def segKey (seg : List Char) : List Char := seg.takeWhile (fun c => c != '=')

/-- Number of separator occurrences in a message. -/
def countSep (sep : Char) : List Char → Nat
  | [] => 0
  | c :: cs => (if c = sep then 1 else 0) + countSep sep cs

/-- An occurrence of the pattern at `s` (a position of the subject, viewed as
the suffix starting there) is inert when the span it matches is exactly
`field={tok}{sep}`: replacing it reproduces the same text. -/
def MatchOK (field tok : List Char) (sep : Char) (s : List Char) : Prop :=
  ∀ r, matchField field sep s = some r → s = field ++ '=' :: (tok ++ sep :: r)

/-- Every position of `l` is inert for the pattern of `field`. -/
def Inert (field tok : List Char) (sep : Char) (l : List Char) : Prop :=
  ∀ s, s <:+ l → MatchOK field tok sep s

/-- A log record as seen by the formatter: the metadata used by the format
string `[HOLBERTON] %(name)s %(levelname)s %(asctime)-15s: %(message)s`,
plus the rendered message (`record.getMessage()`). -/
structure LogRecord where
  name : String
  levelname : String
  asctime : String
  msg : String

/-- The `%-15s` conversion applied to `asctime`: left-justified, padded with
spaces to a minimum width of 15. -/
def padTo15 (s : String) : String := s ++ String.mk (List.replicate (15 - s.length) ' ')

/-- `logging.Formatter.format` with the class's `FORMAT` string: splices the
record's fields into `[HOLBERTON] %(name)s %(levelname)s %(asctime)-15s:
%(message)s`. -/
def superFormat (r : LogRecord) : String :=
  "[HOLBERTON] " ++ r.name ++ " " ++ r.levelname ++ " " ++ padTo15 r.asctime ++ ": " ++ r.msg

/-- `RedactingFormatter.format`: sets `record.msg` to the redaction of
`record.getMessage()` and then delegates to the base class's `format`. -/
def formatRecord (fields : List String) (r : LogRecord) : String :=
  superFormat { r with msg := filter_datum fields "***" r.msg ';' }

/-- The structural prefix contributed by the record's metadata: everything the
format string places before `%(message)s`. -/
def basePrefix (r : LogRecord) : String :=
  "[HOLBERTON] " ++ r.name ++ " " ++ r.levelname ++ " " ++ padTo15 r.asctime ++ ": "

/-- Outcome of `get_db`'s configuration phase: either the call proceeds to
`mysql.connector.connect` with the resolved parameters, or it stops with a
configuration error before any connection attempt (the behaviour the spec
prescribes for a missing database name). -/
inductive GetDbOutcome where
  | connectAttempt (user password host : String) (dbName : Option String)
  | configError (description : String)
deriving DecidableEq

/-- Whether the outcome is a fail-fast configuration error. -/
def GetDbOutcome.isConfigError : GetDbOutcome → Bool
  | .configError _ => true
  | _ => false

/-- The configuration logic of `get_db` in `filtered_logger.py`: every
parameter is read with `os.environ.get` (username default `root`, password
default `""`, host default `localhost`, database name without a default), and
the call proceeds directly to `mysql.connector.connect` — no presence check on
the database name is made first. -/
def get_db (env : String → Option String) : GetDbOutcome :=
  GetDbOutcome.connectAttempt ((env "PERSONAL_DATA_DB_USERNAME").getD "root")
    ((env "PERSONAL_DATA_DB_PASSWORD").getD "")
    ((env "PERSONAL_DATA_DB_HOST").getD "localhost")
    (env "PERSONAL_DATA_DB_NAME")

/-- Big-step evaluation relation for one `re.sub` pass: `SubEval f tok sep l o`
holds when the scan of `l` produces `o`. -/
inductive SubEval (field tok : List Char) (sep : Char) : List Char → List Char → Prop
  | nil : SubEval field tok sep [] []
  | matched {c : Char} {cs rest out : List Char} :
      matchField field sep (c :: cs) = some rest → SubEval field tok sep rest out →
      SubEval field tok sep (c :: cs) (field ++ '=' :: (tok ++ sep :: out))
  | skipped {c : Char} {cs out : List Char} :
      matchField field sep (c :: cs) = none → SubEval field tok sep cs out →
      SubEval field tok sep (c :: cs) (c :: out)

/-- Big-step evaluation of the whole per-field loop of `filter_datum`. -/
inductive FilterEval (tok : List Char) (sep : Char) : List String → List Char → List Char → Prop
  | nil (l : List Char) : FilterEval tok sep [] l l
  | cons {f : String} {fs : List String} {l m out : List Char} :
      SubEval f.data tok sep l m → FilterEval tok sep fs m out →
      FilterEval tok sep (f :: fs) l out

end FilteredLogger

namespace EncryptPassword

/-- Modelled from the spec: the external `bcrypt` library used by
`encrypt_password.py` is not part of this repository; we model its interface
as an abstract hash/check pair over byte strings (bytes as `Nat`). -/
structure Bcrypt where
  hashpw : List Nat → List Nat → List Nat
  checkpw : List Nat → List Nat → Bool

/-- bcrypt's round-trip contract: a byte string checks against every hash
produced from it (with any salt). -/
def Bcrypt.Sound (B : Bcrypt) : Prop :=
  ∀ pw salt, B.checkpw pw (B.hashpw pw salt) = true

/-- `password.encode('utf-8')`: the UTF-8 bytes of a string. -/
def encodeUtf8 (s : String) : List Nat := s.toUTF8.toList.map (fun b => b.toNat)

/-- `hash_password` of `encrypt_password.py`, with the salt produced by
`bcrypt.gensalt()` made an explicit argument. -/
def hash_password (B : Bcrypt) (password : String) (salt : List Nat) : List Nat :=
  B.hashpw (encodeUtf8 password) salt

/-- `is_valid` of `encrypt_password.py`. -/
def is_valid (B : Bcrypt) (hashed_password : List Nat) (password : String) : Bool :=
  B.checkpw (encodeUtf8 password) hashed_password

/-- A small concrete instance of the bcrypt interface (salt-prefixed,
length-tagged) satisfying the round-trip contract; used as a witness. -/
def toyBcrypt : Bcrypt where
  hashpw := fun pw salt => salt.length :: (salt ++ pw)
  checkpw := fun pw h =>
    match h with
    | [] => false
    | n :: rest => decide (rest.drop n = pw)

end EncryptPassword

namespace FilteredLogger

theorem findSep_some_length_lt {sep : Char} :
    ∀ {l r : List Char}, findSep sep l = some r → r.length < l.length := by
  intro l
  induction l with
  | nil => intro r h; simp [findSep] at h
  | cons c cs ih =>
    intro r h
    simp only [findSep] at h
    split at h
    · simp only [Option.some.injEq] at h
      subst h
      simp
    · split at h
      · cases h
      · have := ih h
        simp only [List.length_cons]
        omega

theorem startsWith_length_le :
    ∀ {p l : List Char}, startsWith p l = true → p.length ≤ l.length := by
  intro p
  induction p with
  | nil => intro l _; simp
  | cons a as ih =>
    intro l h
    cases l with
    | nil => simp [startsWith] at h
    | cons c cs =>
      simp only [startsWith, Bool.and_eq_true] at h
      simp only [List.length_cons]
      exact Nat.succ_le_succ (ih h.2)

theorem matchField_some_length_lt {field : List Char} {sep : Char} :
    ∀ {l r : List Char}, matchField field sep l = some r → r.length < l.length := by
  intro l r h
  unfold matchField at h
  by_cases hs : startsWith (field ++ ['=']) l = true
  · simp [hs] at h
    have h1 : r.length < (l.drop (field.length + 1)).length := findSep_some_length_lt h
    have h2 : (l.drop (field.length + 1)).length ≤ l.length := by
      simp [List.length_drop]
    omega
  · simp [hs] at h

theorem subFuel_congr (field tok : List Char) (sep : Char) :
    ∀ n m l, l.length ≤ n → l.length ≤ m →
      subFuel field tok sep n l = subFuel field tok sep m l := by
  intro n
  induction n with
  | zero =>
    intro m l hn _
    have : l = [] := List.length_eq_zero.mp (Nat.le_zero.mp hn)
    subst this
    cases m <;> rfl
  | succ k ih =>
    intro m l hn hm
    cases l with
    | nil => cases m <;> rfl
    | cons c cs =>
      cases m with
      | zero => exact absurd hm (by simp)
      | succ j =>
        cases h : matchField field sep (c :: cs) with
        | some rest =>
          have hlt := matchField_some_length_lt h
          simp only [List.length_cons] at hn hm hlt
          simp only [subFuel, h]
          rw [ih j rest (by omega) (by omega)]
        | none =>
          simp only [List.length_cons] at hn hm
          simp only [subFuel, h]
          rw [ih j cs (by omega) (by omega)]

theorem subAll_nil (field tok : List Char) (sep : Char) : subAll field tok sep [] = [] := rfl

theorem subAll_cons (field tok : List Char) (sep : Char) (c : Char) (cs : List Char) :
    subAll field tok sep (c :: cs) =
      match matchField field sep (c :: cs) with
      | some rest => field ++ '=' :: (tok ++ sep :: subAll field tok sep rest)
      | none => c :: subAll field tok sep cs := by
  unfold subAll
  cases h : matchField field sep (c :: cs) with
  | some rest =>
    have hlt := matchField_some_length_lt h
    simp only [List.length_cons] at hlt
    simp only [List.length_cons, subFuel, h]
    rw [subFuel_congr field tok sep cs.length rest.length rest (by omega) (by omega)]
  | none =>
    simp only [List.length_cons, subFuel, h]

/-- C1: with fields {name, email, phone}, token `***` and separator `;`, the
message `name=Alice;email=a@x.com;phone=555;` is redacted to
`name=***;email=***;phone=***;`. -/
theorem C1_redacts_all_configured_segments :
    filter_datum ["name", "email", "phone"] "***" "name=Alice;email=a@x.com;phone=555;" ';' =
      "name=***;email=***;phone=***;" := by decide

/-- C2: the non-greedy match treats the two `password` segments independently:
`password=abc;password=def;` becomes `password=***;password=***;`, rather than a
single match spanning from the first `password=` across the first separator. -/
theorem C2_nongreedy_redacts_each_occurrence :
    filter_datum ["password"] "***" "password=abc;password=def;" ';' =
      "password=***;password=***;" := by decide

theorem containsPat_cons_false {pat : List Char} {c : Char} {cs : List Char}
    (h : containsPat pat (c :: cs) = false) :
    startsWith pat (c :: cs) = false ∧ containsPat pat cs = false := by
  simp only [containsPat, Bool.or_eq_false_iff] at h
  exact h

theorem matchField_none_of_not_startsWith {field : List Char} {sep : Char} {l : List Char}
    (h : startsWith (field ++ ['=']) l = false) : matchField field sep l = none := by
  simp [matchField, h]

/-- A pass for a field whose `field=` pattern occurs nowhere in the subject
leaves the subject unchanged. -/
theorem subAll_id_of_not_contains {field : List Char} (tok : List Char) (sep : Char) :
    ∀ {l : List Char}, containsPat (field ++ ['=']) l = false → subAll field tok sep l = l := by
  intro l
  induction l with
  | nil => intro _; rfl
  | cons c cs ih =>
    intro h
    obtain ⟨h1, h2⟩ := containsPat_cons_false h
    rw [subAll_cons, matchField_none_of_not_startsWith h1]
    exact congrArg (c :: ·) (ih h2)

/-- C3 (amended): a message in which no configured field name immediately
followed by `=` occurs as a substring is returned unchanged. -/
theorem C3_amended_unchanged_when_no_field_pattern_occurs
    (fields : List String) (redaction : String) (message : String) (separator : Char)
    (h : ∀ f ∈ fields, containsPat (f.data ++ ['=']) message.data = false) :
    filter_datum fields redaction message separator = message := by
  unfold filter_datum
  have : ∀ fs : List String, (∀ f ∈ fs, containsPat (f.data ++ ['=']) message.data = false) →
      fs.foldl (fun m f => subAll f.data redaction.data separator m) message.data =
        message.data := by
    intro fs
    induction fs with
    | nil => intro _; rfl
    | cons f fs ih =>
      intro hf
      simp only [List.foldl_cons]
      rw [subAll_id_of_not_contains redaction.data separator (hf f (by simp))]
      exact ih (fun g hg => hf g (List.mem_cons_of_mem f hg))
  rw [this fields h]

/-- C3 witness: a message without any `name=` substring passes through
`filter_datum` unchanged. -/
theorem C3_amended_witness :
    (∀ f ∈ (["name"] : List String), containsPat (f.data ++ ['=']) "hello world".data = false) ∧
      filter_datum ["name"] "***" "hello world" ';' = "hello world" :=
  ⟨by decide,
    C3_amended_unchanged_when_no_field_pattern_occurs ["name"] "***" "hello world" ';'
      (by decide)⟩

/-- C3 counterexample: in `username=Bob;` no segment's field name is in the
configured set {name}, yet `filter_datum` does not return the input unchanged
(the pattern `name=` matches inside the key `username`). -/
theorem C3_counterexample_segment_keys_disjoint_yet_changed :
    (∀ k ∈ (splitSep ';' "username=Bob;".data).map segKey, ¬ k ∈ ["name".data]) ∧
      filter_datum ["name"] "***" "username=Bob;" ';' ≠ "username=Bob;" := by decide

theorem startsWith_decomp :
    ∀ {p l : List Char}, startsWith p l = true → l = p ++ l.drop p.length := by
  intro p
  induction p with
  | nil => intro l _; simp
  | cons a as ih =>
    intro l h
    cases l with
    | nil => simp [startsWith] at h
    | cons c cs =>
      simp only [startsWith, Bool.and_eq_true, decide_eq_true_eq] at h
      obtain ⟨hac, hrest⟩ := h
      subst hac
      simpa [List.length_cons] using congrArg (a :: ·) (ih hrest)

theorem findSep_some_decomp {sep : Char} :
    ∀ {l r : List Char}, findSep sep l = some r →
      ∃ v, l = v ++ sep :: r ∧ ∀ c ∈ v, c ≠ sep ∧ c ≠ '\n' := by
  intro l
  induction l with
  | nil => intro r h; simp [findSep] at h
  | cons c cs ih =>
    intro r h
    simp only [findSep] at h
    split at h
    · next hc =>
      simp only [Option.some.injEq] at h
      subst h
      subst hc
      exact ⟨[], rfl, by simp⟩
    · next hc =>
      split at h
      · cases h
      · next hn =>
        obtain ⟨v, hv, hvc⟩ := ih h
        refine ⟨c :: v, by simp [hv], ?_⟩
        intro d hd
        rcases List.mem_cons.mp hd with hdc | hdv
        · subst hdc; exact ⟨hc, hn⟩
        · exact hvc d hdv

theorem matchField_some_decomp {field : List Char} {sep : Char} {l r : List Char}
    (h : matchField field sep l = some r) :
    ∃ v, l = field ++ '=' :: (v ++ sep :: r) ∧ ∀ c ∈ v, c ≠ sep ∧ c ≠ '\n' := by
  unfold matchField at h
  by_cases hs : startsWith (field ++ ['=']) l = true
  · simp only [hs, if_true] at h
    obtain ⟨v, hv, hvc⟩ := findSep_some_decomp h
    have hdec := startsWith_decomp hs
    refine ⟨v, ?_, hvc⟩
    have hlen : (field ++ ['=']).length = field.length + 1 := by simp
    rw [hlen] at hdec
    rw [hdec, hv]
    simp
  · simp [hs] at h

theorem countSep_append (sep : Char) :
    ∀ l₁ l₂, countSep sep (l₁ ++ l₂) = countSep sep l₁ + countSep sep l₂ := by
  intro l₁ l₂
  induction l₁ with
  | nil => simp [countSep]
  | cons c cs ih => simp [countSep, ih]; omega

theorem countSep_eq_zero {sep : Char} {l : List Char} (h : ∀ c ∈ l, c ≠ sep) :
    countSep sep l = 0 := by
  induction l with
  | nil => rfl
  | cons c cs ih =>
    simp only [countSep]
    rw [if_neg (h c (by simp)), ih (fun d hd => h d (List.mem_cons_of_mem c hd))]

/-- A pass preserves the number of separators, provided the replacement token
contains none (the matched span `field=value{sep}` and its replacement
`field={tok}{sep}` then hold equally many). -/
theorem countSep_subAll (field tok : List Char) (sep : Char) (htok : ∀ c ∈ tok, c ≠ sep) :
    ∀ n l, l.length ≤ n → countSep sep (subAll field tok sep l) = countSep sep l := by
  intro n
  induction n with
  | zero =>
    intro l hl
    have : l = [] := List.length_eq_zero.mp (Nat.le_zero.mp hl)
    subst this
    rfl
  | succ k ih =>
    intro l hl
    cases l with
    | nil => rfl
    | cons c cs =>
      rw [subAll_cons]
      cases h : matchField field sep (c :: cs) with
      | some rest =>
        obtain ⟨v, hv, hvc⟩ := matchField_some_decomp h
        have hlt := matchField_some_length_lt h
        simp only [List.length_cons] at hl hlt
        have hrest := ih rest (by omega)
        have hvz : countSep sep v = 0 := countSep_eq_zero (fun d hd => (hvc d hd).1)
        have htz : countSep sep tok = 0 := countSep_eq_zero htok
        rw [hv]
        simp only [countSep_append, countSep, countSep_append]
        omega
      | none =>
        simp only [List.length_cons] at hl
        simp only [countSep]
        rw [ih cs (by omega)]

theorem splitSep_ne_nil (sep : Char) : ∀ l, splitSep sep l ≠ [] := by
  intro l
  cases l with
  | nil => simp [splitSep]
  | cons c cs =>
    simp only [splitSep]
    split
    · simp
    · cases h : splitSep sep cs <;> simp

theorem splitSep_length (sep : Char) :
    ∀ l, (splitSep sep l).length = countSep sep l + 1 := by
  intro l
  induction l with
  | nil => rfl
  | cons c cs ih =>
    simp only [splitSep, countSep]
    split
    · next hc =>
      simp only [List.length_cons, ih, if_pos hc]
      omega
    · next hc =>
      cases h : splitSep sep cs with
      | nil => exact absurd h (splitSep_ne_nil sep cs)
      | cons s ss =>
        rw [h] at ih
        simp only [List.length_cons] at ih ⊢
        omega

/-- C4: with token `***` and separator `;`, the output of `filter_datum` has
exactly as many separator-delimited segments as the input, for every message
and every field list. -/
theorem C4_segment_count_invariant (fields : List String) (message : String) :
    (splitSep ';' (filter_datum fields "***" message ';').data).length =
      (splitSep ';' message.data).length := by
  rw [splitSep_length, splitSep_length]
  have hstar : ∀ c ∈ "***".data, c ≠ ';' := by decide
  have key : ∀ (fs : List String) (l : List Char),
      countSep ';' (fs.foldl (fun m f => subAll f.data "***".data ';' m) l) =
        countSep ';' l := by
    intro fs
    induction fs with
    | nil => intro l; rfl
    | cons f fs ih =>
      intro l
      simp only [List.foldl_cons]
      rw [ih (subAll f.data "***".data ';' l),
        countSep_subAll f.data "***".data ';' hstar l.length l (Nat.le_refl _)]
  have hdata : (filter_datum fields "***" message ';').data =
      fields.foldl (fun m f => subAll f.data "***".data ';' m) message.data := rfl
  rw [hdata, key fields message.data]

/-- C10: `filter_datum` matches field names as raw substrings: with fields
{name}, the message `username=Bob;` — whose only segment key, `username`, is
not a configured field — becomes `username=***;`. -/
theorem C10_substring_matching_redacts_nonconfigured_key :
    (∀ k ∈ (splitSep ';' "username=Bob;".data).map segKey, k ≠ "name".data) ∧
      filter_datum ["name"] "***" "username=Bob;" ';' = "username=***;" := by decide

theorem string_append_assoc (a b c : String) : a ++ b ++ c = a ++ (b ++ c) := by
  cases a with
  | mk da =>
    cases b with
    | mk db =>
      cases c with
      | mk dc =>
        show String.mk (da ++ db ++ dc) = String.mk (da ++ (db ++ dc))
        rw [List.append_assoc]

/-- C6: `RedactingFormatter.format` redacts only the rendered message and then
splices it after the structural prefix: the output is exactly the prefix built
from the record's metadata followed by the redacted message, for every record —
including records whose name, level or timestamp text contains `field=value;`
shaped text, which is passed through unredacted. -/
theorem C6_redaction_confined_to_message (fields : List String) (r : LogRecord) :
    formatRecord fields r = basePrefix r ++ filter_datum fields "***" r.msg ';' := by
  unfold formatRecord superFormat basePrefix
  simp only [string_append_assoc]

/-- C7 counterexample: in an environment with no `PERSONAL_DATA_DB_NAME` (and
nothing else) set, `get_db` does not stop with a configuration error; it
proceeds straight to the connection attempt, passing the absent name through. -/
theorem C7_counterexample_no_failfast_on_missing_dbname :
    (get_db (fun _ => none)).isConfigError = false ∧
      get_db (fun _ => none) = GetDbOutcome.connectAttempt "root" "" "localhost" none :=
  ⟨rfl, rfl⟩

/-- C7 (amended): when `PERSONAL_DATA_DB_NAME` is absent, `get_db` performs no
fail-fast check: it resolves the defaulted parameters and proceeds to the
connection attempt with no database name. -/
theorem C7_amended_connect_attempted_without_dbname
    (env : String → Option String) (h : env "PERSONAL_DATA_DB_NAME" = none) :
    get_db env = GetDbOutcome.connectAttempt ((env "PERSONAL_DATA_DB_USERNAME").getD "root")
      ((env "PERSONAL_DATA_DB_PASSWORD").getD "")
      ((env "PERSONAL_DATA_DB_HOST").getD "localhost") none := by
  unfold get_db
  rw [h]

/-- C7 witness: the empty environment lacks the database name, and `get_db`
still produces a connection attempt. -/
theorem C7_amended_witness :
    ((fun _ => none : String → Option String) "PERSONAL_DATA_DB_NAME" = none) ∧
      get_db (fun _ => none) = GetDbOutcome.connectAttempt "root" "" "localhost" none :=
  ⟨rfl, C7_amended_connect_attempted_without_dbname (fun _ => none) rfl⟩

theorem subEval_subAll (field tok : List Char) (sep : Char) :
    ∀ n l, l.length ≤ n → SubEval field tok sep l (subAll field tok sep l) := by
  intro n
  induction n with
  | zero =>
    intro l hl
    have : l = [] := List.length_eq_zero.mp (Nat.le_zero.mp hl)
    subst this
    rw [subAll_nil]
    exact SubEval.nil
  | succ k ih =>
    intro l hl
    cases l with
    | nil =>
      rw [subAll_nil]
      exact SubEval.nil
    | cons c cs =>
      rw [subAll_cons]
      cases h : matchField field sep (c :: cs) with
      | some rest =>
        have hlt := matchField_some_length_lt h
        simp only [List.length_cons] at hl hlt
        exact SubEval.matched h (ih rest (by omega))
      | none =>
        simp only [List.length_cons] at hl
        exact SubEval.skipped h (ih cs (by omega))

/-- C8: the redaction scan is total and effect-free on its message input: for
every message (of any shape), every field list, token and separator, the
big-step evaluation relation derives an output, and that output is the value
`filter_datum` returns — there is no error case. -/
theorem C8_scan_total_on_every_message (fields : List String) (redaction : String)
    (message : String) (separator : Char) :
    FilterEval redaction.data separator fields message.data
      (filter_datum fields redaction message separator).data := by
  have key : ∀ (fs : List String) (l : List Char),
      FilterEval redaction.data separator fs l
        (fs.foldl (fun m f => subAll f.data redaction.data separator m) l) := by
    intro fs
    induction fs with
    | nil => intro l; exact FilterEval.nil l
    | cons f fs ih =>
      intro l
      simp only [List.foldl_cons]
      exact FilterEval.cons
        (subEval_subAll f.data redaction.data separator l.length l (Nat.le_refl _)) (ih _)
  have hdata : (filter_datum fields redaction message separator).data =
      fields.foldl (fun m f => subAll f.data redaction.data separator m) message.data := rfl
  rw [hdata]
  exact key fields message.data

theorem cons_as_append (A : List Char) (b : Char) (Z : List Char) :
    A ++ b :: Z = (A ++ [b]) ++ Z := by
  rw [List.append_assoc]
  rfl

theorem startsWith_append_self : ∀ (p X : List Char), startsWith p (p ++ X) = true := by
  intro p X
  induction p with
  | nil => rfl
  | cons a as ih => simp [startsWith, ih]

theorem startsWith_take_length :
    ∀ (p l : List Char), startsWith p l = startsWith p (l.take p.length) := by
  intro p
  induction p with
  | nil => intro l; rfl
  | cons a as ih =>
    intro l
    cases l with
    | nil => rfl
    | cons c cs =>
      simp only [List.length_cons, List.take_succ_cons, startsWith]
      rw [← ih cs]

theorem take_append_le {n : Nat} (A X Y : List Char) (h : n ≤ A.length) :
    (A ++ X).take n = (A ++ Y).take n := by
  rw [List.take_append_eq_append_take, List.take_append_eq_append_take]
  have : n - A.length = 0 := by omega
  rw [this]
  simp

theorem take_subAll (field tok : List Char) (sep : Char) :
    ∀ N l n, l.length ≤ N → n ≤ field.length + 1 →
      (subAll field tok sep l).take n = l.take n := by
  intro N
  induction N with
  | zero =>
    intro l n hl _
    have : l = [] := List.length_eq_zero.mp (Nat.le_zero.mp hl)
    subst this
    rfl
  | succ k ih =>
    intro l n hl hn
    cases l with
    | nil => rfl
    | cons c cs =>
      rw [subAll_cons]
      cases h : matchField field sep (c :: cs) with
      | some rest =>
        dsimp only
        obtain ⟨v, hv, _⟩ := matchField_some_decomp h
        rw [hv]
        rw [cons_as_append field '=' (tok ++ sep :: subAll field tok sep rest),
          cons_as_append field '=' (v ++ sep :: rest)]
        exact take_append_le (field ++ ['=']) _ _ (by simp; omega)
      | none =>
        dsimp only
        cases n with
        | zero => rfl
        | succ j =>
          simp only [List.length_cons] at hl
          simp only [List.take_succ_cons]
          rw [ih cs j (by omega) (by omega)]

theorem blockFit {b : Char} :
    ∀ (p X Y : List Char), (∀ c ∈ p, c ≠ b) → startsWith p (X ++ b :: Y) = true →
      p.length ≤ X.length ∧ startsWith p X = true := by
  intro p
  induction p with
  | nil => intro X Y _ _; exact ⟨Nat.zero_le _, rfl⟩
  | cons a ps ih =>
    intro X Y hp hsw
    cases X with
    | nil =>
      simp only [List.nil_append, startsWith, Bool.and_eq_true, decide_eq_true_eq] at hsw
      exact absurd hsw.1 (hp a (List.mem_cons_self a ps))
    | cons x xs =>
      simp only [List.cons_append, startsWith, Bool.and_eq_true, decide_eq_true_eq] at hsw
      obtain ⟨hax, hrest⟩ := hsw
      obtain ⟨hle, hsw'⟩ := ih xs Y (fun c hc => hp c (List.mem_cons_of_mem a hc)) hrest
      refine ⟨by simp only [List.length_cons]; omega, ?_⟩
      simp only [startsWith, Bool.and_eq_true, decide_eq_true_eq]
      exact ⟨hax, hsw'⟩

theorem startsWith_at_mem {b : Char} :
    ∀ (p X Y : List Char), startsWith p (X ++ b :: Y) = true → X.length < p.length →
      b ∈ p.take (X.length + 1) := by
  intro p
  induction p with
  | nil => intro X Y _ hlt; exact absurd hlt (by simp)
  | cons a ps ih =>
    intro X Y hsw hlt
    cases X with
    | nil =>
      simp only [List.nil_append, startsWith, Bool.and_eq_true, decide_eq_true_eq] at hsw
      simp [hsw.1]
    | cons x xs =>
      simp only [List.cons_append, startsWith, Bool.and_eq_true, decide_eq_true_eq] at hsw
      simp only [List.length_cons] at hlt
      have := ih xs Y hsw.2 (by omega)
      simp only [List.length_cons, List.take_succ_cons]
      exact List.mem_cons_of_mem a this

theorem containsPat_iff_suffix (pat : List Char) :
    ∀ l, containsPat pat l = true ↔ ∃ s, s <:+ l ∧ startsWith pat s = true := by
  intro l
  induction l with
  | nil =>
    simp only [containsPat]
    constructor
    · intro h; exact ⟨[], List.suffix_refl [], h⟩
    · rintro ⟨s, hs, hsw⟩
      rw [List.suffix_nil.mp hs] at hsw
      exact hsw
  | cons c cs ih =>
    simp only [containsPat, Bool.or_eq_true]
    constructor
    · rintro (h | h)
      · exact ⟨c :: cs, List.suffix_refl _, h⟩
      · obtain ⟨s, hs, hsw⟩ := ih.mp h
        exact ⟨s, hs.trans (List.suffix_cons c cs), hsw⟩
    · rintro ⟨s, hs, hsw⟩
      rcases List.suffix_cons_iff.mp hs with h | h
      · subst h; exact Or.inl hsw
      · exact Or.inr (ih.mpr ⟨s, h, hsw⟩)

theorem suffix_append_cons {s : List Char} :
    ∀ (A : List Char) (b : Char) (Z : List Char), s <:+ (A ++ b :: Z) →
      (∃ A', A' <:+ A ∧ s = A' ++ b :: Z) ∨ s <:+ Z := by
  intro A
  induction A with
  | nil =>
    intro b Z hs
    rcases List.suffix_cons_iff.mp hs with h | h
    · exact Or.inl ⟨[], List.suffix_refl [], h⟩
    · exact Or.inr h
  | cons a A' ih =>
    intro b Z hs
    simp only [List.cons_append] at hs
    rcases List.suffix_cons_iff.mp hs with h | h
    · exact Or.inl ⟨a :: A', List.suffix_refl _, by simpa using h⟩
    · rcases ih b Z h with ⟨A'', hA'', hEq⟩ | h'
      · exact Or.inl ⟨A'', hA''.trans (List.suffix_cons a A'), hEq⟩
      · exact Or.inr h'

theorem matchField_nil (field : List Char) (sep : Char) : matchField field sep [] = none := by
  cases field <;> rfl

theorem findSep_tok {sep : Char} {tok : List Char} (h1 : sep ∉ tok) (h2 : '\n' ∉ tok) :
    ∀ X, findSep sep (tok ++ sep :: X) = some X := by
  induction tok with
  | nil => intro X; simp [findSep]
  | cons t ts ih =>
    intro X
    simp only [List.mem_cons, not_or] at h1 h2
    simp only [List.cons_append, findSep]
    rw [if_neg (fun hts => h1.1 hts.symm), if_neg (fun ht => h2.1 ht.symm)]
    exact ih h1.2 h2.2 X

theorem matchField_block {field tok : List Char} {sep : Char}
    (h1 : sep ∉ tok) (h2 : '\n' ∉ tok) (X : List Char) :
    matchField field sep (field ++ '=' :: (tok ++ sep :: X)) = some X := by
  unfold matchField
  rw [cons_as_append field '=' (tok ++ sep :: X)]
  rw [if_pos (startsWith_append_self (field ++ ['=']) _)]
  rw [show field.length + 1 = (field ++ ['=']).length by simp]
  rw [List.drop_left]
  exact findSep_tok h1 h2 X

theorem findSep_sepFree {sep : Char} :
    ∀ {l : List Char}, (∀ c ∈ l, c ≠ sep) → findSep sep l = none := by
  intro l
  induction l with
  | nil => intro _; rfl
  | cons c cs ih =>
    intro h
    simp only [findSep]
    rw [if_neg (h c (List.mem_cons_self c cs))]
    split
    · rfl
    · exact ih (fun d hd => h d (List.mem_cons_of_mem c hd))

theorem findSep_region {sep : Char} (hsn : sep ≠ '\n') :
    ∀ (P Y : List Char), (∀ c ∈ P, c ≠ sep) → findSep sep (P ++ '\n' :: Y) = none := by
  intro P
  induction P with
  | nil =>
    intro Y _
    simp only [List.nil_append, findSep]
    rw [if_neg (fun h => hsn h.symm)]
    simp
  | cons p ps ih =>
    intro Y hP
    simp only [List.cons_append, findSep]
    rw [if_neg (hP p (List.mem_cons_self p ps))]
    split
    · rfl
    · exact ih Y (fun d hd => hP d (List.mem_cons_of_mem p hd))

theorem findSep_none_split {sep : Char} :
    ∀ {l : List Char}, findSep sep l = none →
      (∀ c ∈ l, c ≠ sep ∧ c ≠ '\n') ∨
        ∃ P Y, l = P ++ '\n' :: Y ∧ (∀ c ∈ P, c ≠ sep ∧ c ≠ '\n') ∧ sep ≠ '\n' := by
  intro l
  induction l with
  | nil => intro _; exact Or.inl (by simp)
  | cons c cs ih =>
    intro h
    simp only [findSep] at h
    split at h
    · cases h
    · next hc =>
      split at h
      · next hn =>
        subst hn
        exact Or.inr ⟨[], cs, rfl, by simp, fun hs => hc hs.symm⟩
      · next hn =>
        rcases ih h with hl | ⟨P, Y, hPY, hP, hsn⟩
        · refine Or.inl ?_
          intro d hd
          rcases List.mem_cons.mp hd with hdc | hdcs
          · subst hdc; exact ⟨hc, hn⟩
          · exact hl d hdcs
        · refine Or.inr ⟨c :: P, Y, by rw [hPY]; rfl, ?_, hsn⟩
          intro d hd
          rcases List.mem_cons.mp hd with hdc | hdP
          · subst hdc; exact ⟨hc, hn⟩
          · exact hP d hdP

theorem matchField_none_of_sepFree {field : List Char} {sep : Char} {l : List Char}
    (h : ∀ c ∈ l, c ≠ sep) : matchField field sep l = none := by
  unfold matchField
  split
  · exact findSep_sepFree (fun d hd => h d (List.drop_subset _ l hd))
  · rfl

theorem subAll_sepFree (field tok : List Char) (sep : Char) :
    ∀ {l : List Char}, (∀ c ∈ l, c ≠ sep) → subAll field tok sep l = l := by
  intro l
  induction l with
  | nil => intro _; rfl
  | cons c cs ih =>
    intro h
    rw [subAll_cons, matchField_none_of_sepFree h]
    exact congrArg (c :: ·) (ih (fun d hd => h d (List.mem_cons_of_mem c hd)))

theorem matchField_none_region {field : List Char} {sep : Char} (hsn : sep ≠ '\n')
    (hf : '\n' ∉ field) {Q : List Char} (hQ : ∀ c ∈ Q, c ≠ sep ∧ c ≠ '\n') (Y : List Char) :
    matchField field sep (Q ++ '\n' :: Y) = none := by
  unfold matchField
  split
  · next hsw =>
    have hpnl : ∀ c ∈ field ++ ['='], c ≠ '\n' := by
      intro c hc
      rcases List.mem_append.mp hc with hcf | hce
      · exact fun hcn => hf (hcn ▸ hcf)
      · simp only [List.mem_singleton] at hce
        subst hce
        decide
    obtain ⟨hle, _⟩ := blockFit (field ++ ['=']) Q Y hpnl hsw
    simp only [List.length_append, List.length_singleton] at hle
    rw [List.drop_append_of_le_length (by omega)]
    exact findSep_region hsn _ _ (fun d hd => (hQ d (List.drop_subset _ Q hd)).1)
  · rfl

theorem subAll_region (field tok : List Char) (sep : Char) (hsn : sep ≠ '\n')
    (hf : '\n' ∉ field) :
    ∀ (Q Y : List Char), (∀ c ∈ Q, c ≠ sep ∧ c ≠ '\n') →
      subAll field tok sep (Q ++ '\n' :: Y) = Q ++ '\n' :: subAll field tok sep Y := by
  intro Q
  induction Q with
  | nil =>
    intro Y _
    simp only [List.nil_append]
    rw [subAll_cons, show matchField field sep ('\n' :: Y) = none from
      matchField_none_region hsn hf (Q := []) (by simp) Y]
  | cons q qs ih =>
    intro Y hQ
    simp only [List.cons_append]
    have hm : matchField field sep (q :: (qs ++ '\n' :: Y)) = none := by
      rw [← List.cons_append]
      exact matchField_none_region hsn hf hQ Y
    rw [subAll_cons, hm]
    exact congrArg (q :: ·) (ih Y (fun d hd => hQ d (List.mem_cons_of_mem q hd)))

/-- Key preservation step: a position where the pattern fails to match keeps
failing after the remainder of the subject has been substituted.  Either the
literal `field=` was not there (the first `field.length + 1` characters are
unchanged by the substitution), or no separator was reachable — the characters
up to the blocking newline or end of subject carry no match and are copied
verbatim. -/
theorem keyStep {field tok : List Char} {sep : Char}
    (h3 : sep ∉ field) (h4 : '\n' ∉ field) (h7 : sep ≠ '=')
    {c : Char} {cs : List Char}
    (h : matchField field sep (c :: cs) = none) :
    matchField field sep (c :: subAll field tok sep cs) = none := by
  by_cases hsw : startsWith (field ++ ['=']) (c :: cs) = true
  · have hw : findSep sep ((c :: cs).drop (field.length + 1)) = none := by
      unfold matchField at h
      rwa [if_pos hsw] at h
    have hlen : (field ++ ['=']).length = field.length + 1 := by simp
    have hdec : c :: cs = (field ++ ['=']) ++ (c :: cs).drop (field.length + 1) := by
      have := startsWith_decomp hsw
      rwa [hlen] at this
    rcases findSep_none_split hw with hfree | ⟨P, Y, hPY, hP, hsn⟩
    · have hall : ∀ x ∈ c :: cs, x ≠ sep := by
        rw [hdec]
        intro x hx
        rcases List.mem_append.mp hx with hxp | hxw
        · rcases List.mem_append.mp hxp with hxf | hxe
          · exact fun he => h3 (he ▸ hxf)
          · simp only [List.mem_singleton] at hxe
            subst hxe
            exact fun he => h7 he.symm
        · exact (hfree x hxw).1
      rw [subAll_sepFree field tok sep (fun x hx => hall x (List.mem_cons_of_mem c hx))]
      exact h
    · have hsplit : c :: cs = ((field ++ ['=']) ++ P) ++ '\n' :: Y := by
        rw [hdec, hPY]
        simp [List.append_assoc]
      have hA : ∀ x ∈ (field ++ ['=']) ++ P, x ≠ sep ∧ x ≠ '\n' := by
        intro x hx
        rcases List.mem_append.mp hx with hxp | hxP
        · rcases List.mem_append.mp hxp with hxf | hxe
          · exact ⟨fun he => h3 (he ▸ hxf), fun he => h4 (he ▸ hxf)⟩
          · simp only [List.mem_singleton] at hxe
            subst hxe
            exact ⟨fun he => h7 he.symm, by decide⟩
        · exact hP x hxP
      cases hA0 : (field ++ ['=']) ++ P with
      | nil => simp at hA0
      | cons a A' =>
        rw [hA0] at hsplit
        simp only [List.cons_append, List.cons.injEq] at hsplit
        obtain ⟨hca, hcs⟩ := hsplit
        have hA' : ∀ x ∈ A', x ≠ sep ∧ x ≠ '\n' := by
          intro x hx
          exact hA x (by rw [hA0]; exact List.mem_cons_of_mem a hx)
        have hsub : subAll field tok sep cs = A' ++ '\n' :: subAll field tok sep Y := by
          rw [hcs]
          exact subAll_region field tok sep hsn h4 A' Y hA'
        rw [hsub]
        have hform : c :: (A' ++ '\n' :: subAll field tok sep Y) =
            ((field ++ ['=']) ++ P) ++ '\n' :: subAll field tok sep Y := by
          rw [hA0, hca]
          rfl
        rw [hform]
        exact matchField_none_region hsn h4 hA _
  · have hswf : startsWith (field ++ ['=']) (c :: cs) = false := by
      cases hb : startsWith (field ++ ['=']) (c :: cs)
      · rfl
      · exact absurd hb hsw
    apply matchField_none_of_not_startsWith
    rw [startsWith_take_length]
    have hlen : (field ++ ['=']).length = field.length + 1 := by simp
    have ht : (c :: subAll field tok sep cs).take ((field ++ ['=']).length) =
        (c :: cs).take ((field ++ ['=']).length) := by
      rw [hlen]
      simp only [List.take_succ_cons]
      exact congrArg (c :: ·)
        (take_subAll field tok sep cs.length cs field.length (Nat.le_refl _) (by omega))
    rw [ht, ← startsWith_take_length]
    exact hswf

theorem startsWith_pattern_nil (p : List Char) : startsWith (p ++ ['=']) [] = false := by
  cases p <;> rfl

theorem matchField_some_startsWith {f : List Char} {sep : Char} {l r : List Char}
    (h : matchField f sep l = some r) : startsWith (f ++ ['=']) l = true := by
  unfold matchField at h
  by_cases hs : startsWith (f ++ ['=']) l = true
  · exact hs
  · simp [hs] at h

/-- With `=`-free names, the pattern of `g` can only match text shaped
`h=...` when `g` and `h` coincide: the single `=` of the pattern must line up
with the `=` of the text. -/
theorem eqFit : ∀ (g h Z : List Char), '=' ∉ g → '=' ∉ h →
    startsWith (g ++ ['=']) (h ++ '=' :: Z) = true → g = h := by
  intro g
  induction g with
  | nil =>
    intro h Z _ hh hsw
    cases h with
    | nil => rfl
    | cons a h' =>
      simp only [List.nil_append, List.cons_append, startsWith, Bool.and_eq_true,
        decide_eq_true_eq] at hsw
      exact absurd (by rw [hsw.1]; exact List.mem_cons_self a h') hh
  | cons b g' ih =>
    intro h Z hg hh hsw
    cases h with
    | nil =>
      simp only [List.nil_append, List.cons_append, startsWith, Bool.and_eq_true,
        decide_eq_true_eq] at hsw
      exact absurd (by rw [hsw.1]; exact List.mem_cons_self '=' g') hg
    | cons a h' =>
      simp only [List.cons_append, startsWith, Bool.and_eq_true, decide_eq_true_eq] at hsw
      obtain ⟨hba, hrest⟩ := hsw
      have hg'h' := ih h' Z (fun hm => hg (List.mem_cons_of_mem b hm))
        (fun hm => hh (List.mem_cons_of_mem a hm)) hrest
      rw [hba, hg'h']

/-- A pattern occurrence at the head of a pass's output pulls back to one at
the head of its input: the pass only rewrites value spans, whose start lies
beyond the unique `=` of any `=`-free pattern. -/
theorem startsWith_subAll {h tok : List Char} {sep : Char} (hh3 : '=' ∉ h) :
    ∀ N l, l.length ≤ N → ∀ g, '=' ∉ g →
      startsWith (g ++ ['=']) (subAll h tok sep l) = true →
      startsWith (g ++ ['=']) l = true := by
  intro N
  induction N with
  | zero =>
    intro l hl g _ hsw
    have : l = [] := List.length_eq_zero.mp (Nat.le_zero.mp hl)
    subst this
    rw [subAll_nil, startsWith_pattern_nil] at hsw
    cases hsw
  | succ k ih =>
    intro l hl g hg hsw
    cases l with
    | nil =>
      rw [subAll_nil, startsWith_pattern_nil] at hsw
      cases hsw
    | cons c cs =>
      rw [subAll_cons] at hsw
      cases hm : matchField h sep (c :: cs) with
      | some rest =>
        rw [hm] at hsw
        dsimp only at hsw
        obtain ⟨v, hv, _⟩ := matchField_some_decomp hm
        have hgh : g = h := eqFit g h (tok ++ sep :: subAll h tok sep rest) hg hh3 hsw
        subst hgh
        rw [hv, cons_as_append g '=' (v ++ sep :: rest)]
        exact startsWith_append_self (g ++ ['=']) _
      | none =>
        rw [hm] at hsw
        dsimp only at hsw
        cases g with
        | nil =>
          simp only [List.nil_append, startsWith, Bool.and_eq_true] at hsw ⊢
          exact ⟨hsw.1, trivial⟩
        | cons a g' =>
          simp only [List.cons_append, startsWith, Bool.and_eq_true] at hsw ⊢
          simp only [List.length_cons] at hl
          exact ⟨hsw.1, ih cs (by omega) g' (fun hm' => hg (List.mem_cons_of_mem a hm')) hsw.2⟩

/-- Cross-field version of `keyStep`: a position where the pattern of `g`
fails keeps failing after a pass for any field `h` (same token), under the
per-field cleanliness conditions. -/
theorem keyStep2 {g h tok : List Char} {sep : Char}
    (hg1 : sep ∉ g) (hg2 : '\n' ∉ g) (hg3 : '=' ∉ g)
    (hh2 : '\n' ∉ h) (hh3 : '=' ∉ h) (h7 : sep ≠ '=')
    {c : Char} {cs : List Char}
    (hnone : matchField g sep (c :: cs) = none) :
    matchField g sep (c :: subAll h tok sep cs) = none := by
  by_cases hsw : startsWith (g ++ ['=']) (c :: cs) = true
  · have hw : findSep sep ((c :: cs).drop (g.length + 1)) = none := by
      unfold matchField at hnone
      rwa [if_pos hsw] at hnone
    have hlen : (g ++ ['=']).length = g.length + 1 := by simp
    have hdec : c :: cs = (g ++ ['=']) ++ (c :: cs).drop (g.length + 1) := by
      have := startsWith_decomp hsw
      rwa [hlen] at this
    rcases findSep_none_split hw with hfree | ⟨P, Y, hPY, hP, hsn⟩
    · have hall : ∀ x ∈ c :: cs, x ≠ sep := by
        rw [hdec]
        intro x hx
        rcases List.mem_append.mp hx with hxp | hxw
        · rcases List.mem_append.mp hxp with hxf | hxe
          · exact fun he => hg1 (he ▸ hxf)
          · simp only [List.mem_singleton] at hxe
            subst hxe
            exact fun he => h7 he.symm
        · exact (hfree x hxw).1
      rw [subAll_sepFree h tok sep (fun x hx => hall x (List.mem_cons_of_mem c hx))]
      exact hnone
    · have hsplit : c :: cs = ((g ++ ['=']) ++ P) ++ '\n' :: Y := by
        rw [hdec, hPY]
        simp [List.append_assoc]
      have hA : ∀ x ∈ (g ++ ['=']) ++ P, x ≠ sep ∧ x ≠ '\n' := by
        intro x hx
        rcases List.mem_append.mp hx with hxp | hxP
        · rcases List.mem_append.mp hxp with hxf | hxe
          · exact ⟨fun he => hg1 (he ▸ hxf), fun he => hg2 (he ▸ hxf)⟩
          · simp only [List.mem_singleton] at hxe
            subst hxe
            exact ⟨fun he => h7 he.symm, by decide⟩
        · exact hP x hxP
      cases hA0 : (g ++ ['=']) ++ P with
      | nil => simp at hA0
      | cons a A' =>
        rw [hA0] at hsplit
        simp only [List.cons_append, List.cons.injEq] at hsplit
        obtain ⟨hca, hcs⟩ := hsplit
        have hA' : ∀ x ∈ A', x ≠ sep ∧ x ≠ '\n' := by
          intro x hx
          exact hA x (by rw [hA0]; exact List.mem_cons_of_mem a hx)
        have hsub : subAll h tok sep cs = A' ++ '\n' :: subAll h tok sep Y := by
          rw [hcs]
          exact subAll_region h tok sep hsn hh2 A' Y hA'
        rw [hsub]
        have hform : c :: (A' ++ '\n' :: subAll h tok sep Y) =
            ((g ++ ['=']) ++ P) ++ '\n' :: subAll h tok sep Y := by
          rw [hA0, hca]
          rfl
        rw [hform]
        exact matchField_none_region hsn hg2 hA _
  · apply matchField_none_of_not_startsWith
    cases hb : startsWith (g ++ ['=']) (c :: subAll h tok sep cs)
    · rfl
    · cases g with
      | nil =>
        simp only [List.nil_append, startsWith, Bool.and_eq_true] at hb
        exact absurd (by simp [startsWith, hb.1]) hsw
      | cons a g' =>
        simp only [List.cons_append, startsWith, Bool.and_eq_true] at hb
        have hsw' := startsWith_subAll hh3 cs.length cs (Nat.le_refl _) g'
          (fun hm' => hg3 (List.mem_cons_of_mem a hm')) hb.2
        exact absurd (by simp [startsWith, hb.1, hsw']) hsw

/-- A pass for `h` walks through a token-then-separator region without
matching: the token holds no `h=`, and the pattern cannot reach across the
separator. -/
theorem tokPass {h tok : List Char} {sep : Char}
    (hh1 : sep ∉ h) (h7 : sep ≠ '=') (hct : containsPat (h ++ ['=']) tok = false) :
    ∀ tokT, tokT <:+ tok → ∀ r,
      subAll h tok sep (tokT ++ sep :: r) = tokT ++ sep :: subAll h tok sep r := by
  intro tokT
  induction tokT with
  | nil =>
    intro _ r
    have hm : matchField h sep (sep :: r) = none := by
      apply matchField_none_of_not_startsWith
      cases h with
      | nil =>
        have hne : ('=' : Char) ≠ sep := fun he => h7 he.symm
        simp [startsWith, hne]
      | cons x h' =>
        have hx : x ≠ sep := fun he => hh1 (by rw [← he]; exact List.mem_cons_self x h')
        simp [startsWith, hx]
    simp only [List.nil_append]
    rw [subAll_cons, hm]
  | cons t tokT' ih =>
    intro hsfx r
    have hm : matchField h sep ((t :: tokT') ++ sep :: r) = none := by
      apply matchField_none_of_not_startsWith
      cases hb : startsWith (h ++ ['=']) ((t :: tokT') ++ sep :: r)
      · rfl
      · have hpfree : ∀ x ∈ h ++ ['='], x ≠ sep := by
          intro x hx
          rcases List.mem_append.mp hx with hxf | hxe
          · exact fun he => hh1 (he ▸ hxf)
          · simp only [List.mem_singleton] at hxe
            subst hxe
            exact fun he => h7 he.symm
        obtain ⟨_, hswT⟩ := blockFit (h ++ ['=']) (t :: tokT') r hpfree hb
        have : containsPat (h ++ ['=']) tok = true :=
          (containsPat_iff_suffix _ tok).mpr ⟨t :: tokT', hsfx, hswT⟩
        rw [hct] at this
        exact absurd this Bool.false_ne_true
    simp only [List.cons_append] at hm ⊢
    rw [subAll_cons, hm]
    exact congrArg (t :: ·)
      (ih ((List.suffix_cons t tokT').trans hsfx) r)

/-- Main invariant: every position of the output of a pass is inert — every
residual occurrence of the pattern there matches exactly `field={tok}{sep}` —
provided the token holds no separator or newline and no occurrence of
`field=`, and the field name holds no separator, newline or `=`. -/
theorem inert_subAll {field tok : List Char} {sep : Char}
    (h1 : sep ∉ tok) (h2 : '\n' ∉ tok) (h3 : sep ∉ field) (h4 : '\n' ∉ field)
    (h5 : '=' ∉ field) (h6 : containsPat (field ++ ['=']) tok = false)
    (h7 : sep ≠ '=') :
    ∀ N l, l.length ≤ N → Inert field tok sep (subAll field tok sep l) := by
  intro N
  induction N with
  | zero =>
    intro l hl
    have : l = [] := List.length_eq_zero.mp (Nat.le_zero.mp hl)
    subst this
    rw [subAll_nil]
    intro s hs r hr
    rw [List.suffix_nil.mp hs, matchField_nil] at hr
    cases hr
  | succ k ih =>
    intro l hl
    cases l with
    | nil =>
      rw [subAll_nil]
      intro s hs r hr
      rw [List.suffix_nil.mp hs, matchField_nil] at hr
      cases hr
    | cons c cs =>
      rw [subAll_cons]
      cases h : matchField field sep (c :: cs) with
      | some rest =>
        dsimp only
        intro s hs r hr
        rcases suffix_append_cons field '=' (tok ++ sep :: subAll field tok sep rest) hs with
          ⟨A', hA', hsEq⟩ | hstail
        · by_cases hAf : A' = field
          · subst hAf
            rw [hsEq, matchField_block h1 h2] at hr
            simp only [Option.some.injEq] at hr
            rw [hsEq, ← hr]
          · have hlt : A'.length < field.length := by
              obtain ⟨t, ht⟩ := hA'
              have hlen' := congrArg List.length ht
              simp only [List.length_append] at hlen'
              cases t with
              | nil => exact absurd (by simpa using ht) hAf
              | cons _ _ =>
                simp only [List.length_cons] at hlen'
                omega
            have hnone : matchField field sep s = none := by
              rw [hsEq]
              apply matchField_none_of_not_startsWith
              cases hsw2 : startsWith (field ++ ['=']) (A' ++ '=' ::
                  (tok ++ sep :: subAll field tok sep rest))
              · rfl
              · have hmem := startsWith_at_mem (field ++ ['=']) A'
                  (tok ++ sep :: subAll field tok sep rest) hsw2 (by simp; omega)
                rw [List.take_append_of_le_length (by omega)] at hmem
                exact absurd (List.take_subset _ _ hmem) h5
            rw [hnone] at hr
            cases hr
        · rcases suffix_append_cons tok sep (subAll field tok sep rest) hstail with
            ⟨tokT, hTokT, hsEq⟩ | hstail'
          · have hnone : matchField field sep s = none := by
              rw [hsEq]
              apply matchField_none_of_not_startsWith
              cases hsw2 : startsWith (field ++ ['=']) (tokT ++ sep :: subAll field tok sep rest)
              · rfl
              · have hpfree : ∀ x ∈ field ++ ['='], x ≠ sep := by
                  intro x hx
                  rcases List.mem_append.mp hx with hxf | hxe
                  · exact fun he => h3 (he ▸ hxf)
                  · simp only [List.mem_singleton] at hxe
                    subst hxe
                    exact fun he => h7 he.symm
                obtain ⟨_, hswTok⟩ := blockFit (field ++ ['=']) tokT _ hpfree hsw2
                have hcp : containsPat (field ++ ['=']) tok = true :=
                  (containsPat_iff_suffix _ tok).mpr ⟨tokT, hTokT, hswTok⟩
                rw [h6] at hcp
                exact absurd hcp Bool.false_ne_true
            rw [hnone] at hr
            cases hr
          · have hrl := matchField_some_length_lt h
            simp only [List.length_cons] at hl hrl
            exact ih rest (by omega) s hstail' r hr
      | none =>
        dsimp only
        intro s hs r hr
        rcases List.suffix_cons_iff.mp hs with hEq | hstail
        · subst hEq
          rw [keyStep h3 h4 h7 h] at hr
          cases hr
        · simp only [List.length_cons] at hl
          exact ih cs (by omega) s hstail r hr

/-- A subject all of whose positions are inert is a fixed point of the pass. -/
theorem subAll_of_inert {field tok : List Char} {sep : Char} :
    ∀ N l, l.length ≤ N → Inert field tok sep l → subAll field tok sep l = l := by
  intro N
  induction N with
  | zero =>
    intro l hl _
    have : l = [] := List.length_eq_zero.mp (Nat.le_zero.mp hl)
    subst this
    rfl
  | succ k ih =>
    intro l hl hInert
    cases l with
    | nil => rfl
    | cons c cs =>
      rw [subAll_cons]
      cases h : matchField field sep (c :: cs) with
      | some r =>
        dsimp only
        have hL := hInert (c :: cs) (List.suffix_refl _) r h
        have hrsub : r <:+ (c :: cs) := by
          rw [hL]
          refine ⟨field ++ '=' :: (tok ++ [sep]), ?_⟩
          simp
        have hIr : Inert field tok sep r := fun s hs => hInert s (hs.trans hrsub)
        have hrlen := matchField_some_length_lt h
        simp only [List.length_cons] at hl hrlen
        rw [ih r (by omega) hIr]
        exact hL.symm
      | none =>
        dsimp only
        have hIcs : Inert field tok sep cs :=
          fun s hs => hInert s (hs.trans (List.suffix_cons c cs))
        simp only [List.length_cons] at hl
        rw [ih cs (by omega) hIcs]

/-- A pass for `h` maps an inert block `w=tok;` (with `w` and `h` `=`-free)
to itself and continues after it: the only match it can find there is the
block itself, whose value is already the token. -/
theorem blockPass {h tok : List Char} {sep : Char}
    (hh1 : sep ∉ h) (hh3 : '=' ∉ h) (h7 : sep ≠ '=')
    (htok1 : sep ∉ tok) (htok2 : '\n' ∉ tok)
    (hct : containsPat (h ++ ['=']) tok = false) :
    ∀ w, '=' ∉ w → ∀ r,
      subAll h tok sep (w ++ '=' :: (tok ++ sep :: r)) =
        w ++ '=' :: (tok ++ sep :: subAll h tok sep r) := by
  intro w
  induction w with
  | nil =>
    intro _ r
    simp only [List.nil_append]
    cases h with
    | nil =>
      have hm : matchField [] sep ('=' :: (tok ++ sep :: r)) = some r := by
        have := @matchField_block ([] : List Char) tok sep htok1 htok2 r
        simpa using this
      rw [subAll_cons, hm]
      simp
    | cons x h' =>
      have hm : matchField (x :: h') sep ('=' :: (tok ++ sep :: r)) = none := by
        apply matchField_none_of_not_startsWith
        have hx : x ≠ '=' := fun he => hh3 (by rw [← he]; exact List.mem_cons_self x h')
        simp [startsWith, hx]
      rw [subAll_cons, hm]
      exact congrArg ('=' :: ·) (tokPass hh1 h7 hct tok (List.suffix_refl tok) r)
  | cons a w' ih =>
    intro hw r
    simp only [List.cons_append]
    cases hm : matchField h sep (a :: (w' ++ '=' :: (tok ++ sep :: r))) with
    | some rest =>
      have hsw : startsWith (h ++ ['=']) ((a :: w') ++ '=' :: (tok ++ sep :: r)) = true := by
        simpa using matchField_some_startsWith hm
      have hhw : h = a :: w' := eqFit h (a :: w') _ hh3 hw hsw
      have hm2 : matchField h sep (a :: (w' ++ '=' :: (tok ++ sep :: r))) = some r := by
        rw [hhw]
        have := @matchField_block (a :: w') tok sep htok1 htok2 r
        simpa using this
      rw [hm] at hm2
      simp only [Option.some.injEq] at hm2
      rw [subAll_cons, hm, hm2, hhw]
      simp
    | none =>
      rw [subAll_cons, hm]
      exact congrArg (a :: ·) (ih (fun hm' => hw (List.mem_cons_of_mem a hm')) r)

/-- Cross-field preservation: a subject inert for `g` stays inert for `g`
after a pass for any field `h` with the same token, under the per-field
conditions on `g`, `h` and the token. -/
theorem inert_preserved {g h tok : List Char} {sep : Char}
    (htok1 : sep ∉ tok) (htok2 : '\n' ∉ tok)
    (hg1 : sep ∉ g) (hg2 : '\n' ∉ g) (hg3 : '=' ∉ g)
    (hgt : containsPat (g ++ ['=']) tok = false)
    (hh1 : sep ∉ h) (hh2 : '\n' ∉ h) (hh3 : '=' ∉ h)
    (hht : containsPat (h ++ ['=']) tok = false)
    (h7 : sep ≠ '=') :
    ∀ N l, l.length ≤ N → Inert g tok sep l → Inert g tok sep (subAll h tok sep l) := by
  intro N
  induction N with
  | zero =>
    intro l hl _
    have : l = [] := List.length_eq_zero.mp (Nat.le_zero.mp hl)
    subst this
    rw [subAll_nil]
    intro s hs r hr
    rw [List.suffix_nil.mp hs, matchField_nil] at hr
    cases hr
  | succ k ih =>
    intro l hl hIn
    cases l with
    | nil =>
      rw [subAll_nil]
      intro s hs r hr
      rw [List.suffix_nil.mp hs, matchField_nil] at hr
      cases hr
    | cons c cs =>
      rw [subAll_cons]
      cases hm : matchField h sep (c :: cs) with
      | some rest =>
        dsimp only
        obtain ⟨v, hv, _⟩ := matchField_some_decomp hm
        have hrl := matchField_some_length_lt hm
        simp only [List.length_cons] at hl hrl
        have hInRest : Inert g tok sep rest := by
          intro s hs
          apply hIn s
          refine hs.trans ?_
          rw [hv]
          exact ⟨h ++ '=' :: (v ++ [sep]), by simp⟩
        intro s hs r hr
        rcases suffix_append_cons h '=' (tok ++ sep :: subAll h tok sep rest) hs with
          ⟨A', hA', hsEq⟩ | hstail
        · have hswr := matchField_some_startsWith hr
          rw [hsEq] at hswr
          have hgA : g = A' := eqFit g A' _ hg3 (fun hm' => hh3 (hA'.subset hm')) hswr
          rw [hsEq, ← hgA] at hr ⊢
          rw [matchField_block htok1 htok2] at hr
          simp only [Option.some.injEq] at hr
          rw [hr]
        · rcases suffix_append_cons tok sep (subAll h tok sep rest) hstail with
            ⟨tokT, hTokT, hsEq⟩ | hstail'
          · have hnone : matchField g sep s = none := by
              rw [hsEq]
              apply matchField_none_of_not_startsWith
              cases hb : startsWith (g ++ ['=']) (tokT ++ sep :: subAll h tok sep rest)
              · rfl
              · have hpfree : ∀ x ∈ g ++ ['='], x ≠ sep := by
                  intro x hx
                  rcases List.mem_append.mp hx with hxf | hxe
                  · exact fun he => hg1 (he ▸ hxf)
                  · simp only [List.mem_singleton] at hxe
                    subst hxe
                    exact fun he => h7 he.symm
                obtain ⟨_, hswT⟩ := blockFit (g ++ ['=']) tokT _ hpfree hb
                have hcp : containsPat (g ++ ['=']) tok = true :=
                  (containsPat_iff_suffix _ tok).mpr ⟨tokT, hTokT, hswT⟩
                rw [hgt] at hcp
                exact absurd hcp Bool.false_ne_true
            rw [hnone] at hr
            cases hr
          · exact ih rest (by omega) hInRest s hstail' r hr
      | none =>
        dsimp only
        intro s hs r hr
        rcases List.suffix_cons_iff.mp hs with hEq | hstail
        · subst hEq
          cases hm0 : matchField g sep (c :: cs) with
          | none =>
            rw [keyStep2 hg1 hg2 hg3 hh2 hh3 h7 hm0] at hr
            cases hr
          | some r0 =>
            have hshape := hIn (c :: cs) (List.suffix_refl _) r0 hm0
            cases g with
            | nil =>
              simp only [List.nil_append, List.cons.injEq] at hshape
              obtain ⟨hc, hcs⟩ := hshape
              have hcs' : subAll h tok sep cs = tok ++ sep :: subAll h tok sep r0 := by
                rw [hcs]
                exact tokPass hh1 h7 hht tok (List.suffix_refl tok) r0
              rw [hcs', hc] at hr ⊢
              have hblk : matchField ([] : List Char) sep
                  ('=' :: (tok ++ sep :: subAll h tok sep r0)) = some (subAll h tok sep r0) := by
                have := @matchField_block ([] : List Char) tok sep htok1 htok2
                  (subAll h tok sep r0)
                simpa using this
              rw [hblk] at hr
              simp only [Option.some.injEq] at hr
              rw [← hr]
              simp
            | cons a gT =>
              simp only [List.cons_append, List.cons.injEq] at hshape
              obtain ⟨hc, hcs⟩ := hshape
              have hcs' : subAll h tok sep cs =
                  gT ++ '=' :: (tok ++ sep :: subAll h tok sep r0) := by
                rw [hcs]
                exact blockPass hh1 hh3 h7 htok1 htok2 hht gT
                  (fun hm' => hg3 (List.mem_cons_of_mem a hm')) r0
              rw [hcs', hc] at hr ⊢
              have hblk : matchField (a :: gT) sep
                  (a :: (gT ++ '=' :: (tok ++ sep :: subAll h tok sep r0))) =
                    some (subAll h tok sep r0) := by
                have := @matchField_block (a :: gT) tok sep htok1 htok2 (subAll h tok sep r0)
                simpa using this
              rw [hblk] at hr
              simp only [Option.some.injEq] at hr
              rw [← hr]
              simp
        · simp only [List.length_cons] at hl
          exact ih cs (by omega)
            (fun s' hs' => hIn s' (hs'.trans (List.suffix_cons c cs))) s hstail r hr

/-- Inertness for `g` survives the passes of a whole list of clean fields. -/
theorem inert_fold_pres {g tok : List Char} {sep : Char}
    (htok1 : sep ∉ tok) (htok2 : '\n' ∉ tok)
    (hg1 : sep ∉ g) (hg2 : '\n' ∉ g) (hg3 : '=' ∉ g)
    (hgt : containsPat (g ++ ['=']) tok = false) (h7 : sep ≠ '=') :
    ∀ (fs : List String) (l : List Char),
      (∀ f ∈ fs, sep ∉ f.data ∧ '\n' ∉ f.data ∧ '=' ∉ f.data ∧
        containsPat (f.data ++ ['=']) tok = false) →
      Inert g tok sep l →
      Inert g tok sep (fs.foldl (fun m f => subAll f.data tok sep m) l) := by
  intro fs
  induction fs with
  | nil => intro l _ hIn; exact hIn
  | cons f fs ihf =>
    intro l hfs hIn
    simp only [List.foldl_cons]
    obtain ⟨hf1, hf2, hf3, hf4⟩ := hfs f (List.mem_cons_self f fs)
    exact ihf (subAll f.data tok sep l)
      (fun f' hf' => hfs f' (List.mem_cons_of_mem f hf'))
      (inert_preserved htok1 htok2 hg1 hg2 hg3 hgt hf1 hf2 hf3 hf4 h7
        l.length l (Nat.le_refl _) hIn)

/-- After the full per-field loop, the result is inert for every configured
field: the field's own pass makes it so, and every later pass preserves it. -/
theorem inert_foldl {tok : List Char} {sep : Char}
    (htok1 : sep ∉ tok) (htok2 : '\n' ∉ tok) (h7 : sep ≠ '=') :
    ∀ (fs : List String) (m : List Char),
      (∀ f ∈ fs, sep ∉ f.data ∧ '\n' ∉ f.data ∧ '=' ∉ f.data ∧
        containsPat (f.data ++ ['=']) tok = false) →
      ∀ g ∈ fs, Inert g.data tok sep (fs.foldl (fun x f => subAll f.data tok sep x) m) := by
  intro fs
  induction fs with
  | nil =>
    intro m _ g hg
    simp at hg
  | cons f fs ihf =>
    intro m hfs g hgmem
    simp only [List.foldl_cons]
    obtain ⟨hf1, hf2, hf3, hf4⟩ := hfs f (List.mem_cons_self f fs)
    rcases List.mem_cons.mp hgmem with hgf | hgfs
    · subst hgf
      exact inert_fold_pres htok1 htok2 hf1 hf2 hf3 hf4 h7 fs (subAll g.data tok sep m)
        (fun f' hf' => hfs f' (List.mem_cons_of_mem g hf'))
        (inert_subAll htok1 htok2 hf1 hf2 hf3 hf4 h7 m.length m (Nat.le_refl _))
    · exact ihf (subAll f.data tok sep m)
        (fun f' hf' => hfs f' (List.mem_cons_of_mem f hf')) g hgfs

/-- A subject inert for every configured field is a fixed point of the whole
per-field loop. -/
theorem foldl_fixpoint {tok : List Char} {sep : Char} :
    ∀ (fs : List String) (L : List Char),
      (∀ f ∈ fs, Inert f.data tok sep L) →
      fs.foldl (fun x f => subAll f.data tok sep x) L = L := by
  intro fs
  induction fs with
  | nil => intro L _; rfl
  | cons f fs ihf =>
    intro L hIn
    simp only [List.foldl_cons]
    rw [subAll_of_inert L.length L (Nat.le_refl _) (hIn f (List.mem_cons_self f fs))]
    exact ihf L (fun f' hf' => hIn f' (List.mem_cons_of_mem f hf'))

/-- C5 (amended): `filter_datum` is idempotent for every message and every
list of configured fields, provided each field name contains no separator,
newline or `=`, the token contains no separator, no newline and no occurrence
of `field=` for any configured field, and the separator is not `=` — in
particular for the repository's `PII_FIELDS` with token `***` and
separator `;`. -/
theorem C5_amended_idempotent_all_fields
    (fields : List String) (redaction message : String) (separator : Char)
    (htok1 : separator ∉ redaction.data) (htok2 : '\n' ∉ redaction.data)
    (hfields : ∀ f ∈ fields, separator ∉ f.data ∧ '\n' ∉ f.data ∧ '=' ∉ f.data ∧
      containsPat (f.data ++ ['=']) redaction.data = false)
    (hsep : separator ≠ '=') :
    filter_datum fields redaction (filter_datum fields redaction message separator)
      separator = filter_datum fields redaction message separator := by
  have hdata : ∀ m : String, filter_datum fields redaction m separator =
      ⟨fields.foldl (fun x f => subAll f.data redaction.data separator x) m.data⟩ :=
    fun m => rfl
  rw [hdata, hdata]
  refine congrArg String.mk ?_
  exact foldl_fixpoint fields _
    (fun f hf => inert_foldl htok1 htok2 hsep fields message.data hfields f hf)

/-- C5 witness: redacting a message twice with the repository's full
`PII_FIELDS`, token `***` and separator `;` gives the same string as
redacting it once. -/
theorem C5_amended_all_fields_witness :
    ((';' ∉ "***".data) ∧ ('\n' ∉ "***".data) ∧
      (∀ f ∈ PII_FIELDS, ';' ∉ f.data ∧ '\n' ∉ f.data ∧ '=' ∉ f.data ∧
        containsPat (f.data ++ ['=']) "***".data = false) ∧ ((';' : Char) ≠ '=')) ∧
      filter_datum PII_FIELDS "***"
          (filter_datum PII_FIELDS "***" "name=Alice;email=a@x.com;password=pw;id=7;" ';')
          ';' =
        filter_datum PII_FIELDS "***" "name=Alice;email=a@x.com;password=pw;id=7;" ';' :=
  ⟨by decide,
    C5_amended_idempotent_all_fields PII_FIELDS "***"
      "name=Alice;email=a@x.com;password=pw;id=7;" ';'
      (by decide) (by decide) (by decide) (by decide)⟩

/-- C5 counterexample: the token `q\na=z` does not match the value pattern
`.*?;` (it holds no separator, and `findSep` rejects it), yet redacting
`a=m;` with it twice differs from redacting once: the newline in the token
blocks the re-match of the substituted span, while the embedded `a=z;` tail is
matched and expanded again. -/
theorem C5_counterexample_claim_fails_for_newline_token :
    ((';' ∉ "q\na=z".data) ∧ findSep ';' "q\na=z".data = none) ∧
      filter_datum ["a"] "q\na=z" (filter_datum ["a"] "q\na=z" "a=m;" ';') ';' ≠
        filter_datum ["a"] "q\na=z" "a=m;" ';' := by decide

end FilteredLogger

namespace EncryptPassword

theorem toyBcrypt_sound : Bcrypt.Sound toyBcrypt := by
  intro pw salt
  simp [toyBcrypt, List.drop_left]

/-- C9: for every implementation of the bcrypt interface satisfying bcrypt's
round-trip contract, `is_valid(hash_password(p), p)` is `True` for every
password and salt, and `is_valid` answers `True` exactly when the underlying
`checkpw` of the candidate against the stored hash succeeds. -/
theorem C9_password_roundtrip (B : Bcrypt) (hB : B.Sound) :
    (∀ (p : String) (salt : List Nat), is_valid B (hash_password B p salt) p = true) ∧
      ∀ (h : List Nat) (q : String), is_valid B h q = B.checkpw (encodeUtf8 q) h := by
  constructor
  · intro p salt
    exact hB (encodeUtf8 p) salt
  · intro h q
    rfl

/-- C9 witness: a concrete sound bcrypt instance validates a concrete hashed
password. -/
theorem C9_roundtrip_witness :
    Bcrypt.Sound toyBcrypt ∧
      is_valid toyBcrypt (hash_password toyBcrypt "secret" [7, 7]) "secret" = true :=
  ⟨toyBcrypt_sound, (C9_password_roundtrip toyBcrypt toyBcrypt_sound).1 "secret" [7, 7]⟩

end EncryptPassword
